import Mathlib

set_option linter.unusedSectionVars false

/-!
Shallow embedding of the circle-FRI folding kernel (`circle/src/folding.rs`)
and the packed-value slice conversions (`field/src/packed.rs`) of the
Plonky3 repository, together with theorems settling the frozen claims
about them.

Evaluation matrices of width 2 are embedded as `List (EF × EF)` (one pair
per row); general-width row-major matrices, needed to talk about the
width assertions, are embedded as `RowMatrix`.  Rust `assert!` failures
are embedded as `Option` results (`none` = contract violation).
-/

namespace Plonky3

/-! ## Bit reversal (`circle_bitrev_idx`, `circle_bitrev_permute`) -/

/-- Modelled from the spec: `p3_util::reverse_bits_len` (not under `src/`),
"reverse the low `bits` bits of `idx` (standard FFT bit-reversal)".
Defined by peeling the low bit of `idx` into the high position. -/
def reverse_bits_len : Nat → Nat → Nat
  | _, 0 => 0
  | x, b + 1 => (x % 2) * 2 ^ b + reverse_bits_len (x / 2) b

/-- One step of the circle-specific cascade in `circle_bitrev_idx`
(folding.rs line 83-85): if bit `i` of the current value is set,
XOR with `(1 <<< i) - 1`. -/
def cstep (i x : Nat) : Nat :=
  if x &&& (1 <<< i) ≠ 0 then x ^^^ ((1 <<< i) - 1) else x

/-- The cascade of `cstep`s over a list of bit positions. -/
def ccascade (l : List Nat) (x : Nat) : Nat :=
  l.foldl (fun a i => cstep i a) x

/-- `circle_bitrev_idx` (folding.rs lines 80-88): standard bit reversal of the
low `bits` bits followed by the ascending conditional-XOR cascade. -/
def circle_bitrev_idx (idx bits : Nat) : Nat :=
  ccascade (List.range bits) (reverse_bits_len idx bits)

/-- `circle_bitrev_permute` (folding.rs lines 91-96): element `i` of the output
is element `circle_bitrev_idx i bits` of the input, `bits = log2(len)`.
The length is asserted to be a power of two in the source; the checked
variant `circle_bitrev_permute_checked` models that assertion. -/
def circle_bitrev_permute {T : Type} [Inhabited T] (xs : List T) : List T :=
  (List.range xs.length).map (fun i => xs.getD (circle_bitrev_idx i (Nat.log2 xs.length)) default)

/-- The explicit inverse of `idx ↦ circle_bitrev_idx idx bits`: run the
cascade in descending bit order, then undo the bit reversal. -/
def circle_bitrev_inv (idx bits : Nat) : Nat :=
  reverse_bits_len (ccascade (List.range bits).reverse idx) bits

/-- The permutation built from the explicit inverse map: the round-trip
companion of `circle_bitrev_permute`. -/
def circle_bitrev_unpermute {T : Type} [Inhabited T] (xs : List T) : List T :=
  (List.range xs.length).map (fun i => xs.getD (circle_bitrev_inv i (Nat.log2 xs.length)) default)

/-- `p3_util::log2_strict_usize`, which panics unless its argument is a
power of two, embedded as an `Option`. -/
def log2_strict (n : Nat) : Option Nat :=
  if n = 2 ^ Nat.log2 n then some (Nat.log2 n) else none

/-- Propagate the `log2_strict_usize` panic: produce `v` only when `n` is a
power of two. -/
def guard_pow2 {β : Type} (n : Nat) (v : β) : Option β :=
  match log2_strict n with
  | some _ => some v
  | none => none

/-- Checked variant of `circle_bitrev_permute`: the source calls
`log2_strict_usize(xs.len())`, which panics when the length is not a
power of two. -/
def circle_bitrev_permute_checked {T : Type} [Inhabited T] (xs : List T) : Option (List T) :=
  guard_pow2 xs.length (circle_bitrev_permute xs)

/-! ### Basic lemmas on the bit-reversal machinery -/

theorem reverse_bits_len_succ (x b : Nat) :
    reverse_bits_len x (b + 1) = (x % 2) * 2 ^ b + reverse_bits_len (x / 2) b := rfl

theorem reverse_bits_len_lt (x b : Nat) : reverse_bits_len x b < 2 ^ b := by
  induction b generalizing x with
  | zero => simp [reverse_bits_len]
  | succ b ih =>
    have h1 := ih (x / 2)
    have h2 : (x % 2) * 2 ^ b ≤ 2 ^ b := by
      have : x % 2 ≤ 1 := by omega
      calc (x % 2) * 2 ^ b ≤ 1 * 2 ^ b := Nat.mul_le_mul_right _ this
        _ = 2 ^ b := one_mul _
    have h3 : 2 ^ (b + 1) = 2 ^ b + 2 ^ b := by rw [pow_succ]; ring
    simp only [reverse_bits_len]
    omega

/-- Appending a high bit to the input appends it as the low bit of the
reversal. -/
theorem reverse_bits_len_high (b c y : Nat) (hc : c < 2) (hy : y < 2 ^ b) :
    reverse_bits_len (2 ^ b * c + y) (b + 1) = 2 * reverse_bits_len y b + c := by
  induction b generalizing y with
  | zero =>
    interval_cases y
    interval_cases c <;> simp [reverse_bits_len]
  | succ b ih =>
    have hpow : 2 ^ (b + 1) * c = 2 * (2 ^ b * c) := by ring
    have hy2 : y / 2 < 2 ^ b := by
      have h2 : 2 ^ (b + 1) = 2 * 2 ^ b := by ring
      omega
    have key : (2 ^ (b + 1) * c + y) % 2 = y % 2 := by
      rw [hpow]
      omega
    have key2 : (2 ^ (b + 1) * c + y) / 2 = 2 ^ b * c + y / 2 := by
      rw [hpow]
      omega
    rw [reverse_bits_len_succ, key, key2, ih _ hy2, reverse_bits_len_succ, pow_succ]
    ring

theorem reverse_bits_len_involution (x b : Nat) (hx : x < 2 ^ b) :
    reverse_bits_len (reverse_bits_len x b) b = x := by
  induction b generalizing x with
  | zero => simp [reverse_bits_len]; omega
  | succ b ih =>
    have h1 : reverse_bits_len (x / 2) b < 2 ^ b := reverse_bits_len_lt _ _
    have h2 : x % 2 < 2 := Nat.mod_lt _ (by omega)
    have hx2 : x / 2 < 2 ^ b := by
      rw [pow_succ] at hx
      omega
    calc reverse_bits_len (reverse_bits_len x (b + 1)) (b + 1)
        = reverse_bits_len (2 ^ b * (x % 2) + reverse_bits_len (x / 2) b) (b + 1) := by
          simp only [reverse_bits_len]
          ring_nf
      _ = 2 * reverse_bits_len (reverse_bits_len (x / 2) b) b + x % 2 :=
          reverse_bits_len_high b (x % 2) _ h2 h1
      _ = 2 * (x / 2) + x % 2 := by rw [ih _ hx2]
      _ = x := by omega

theorem cstep_involution (i x : Nat) : cstep i (cstep i x) = x := by
  have hmask : ((1 <<< i) - 1) &&& (1 <<< i) = 0 := by
    apply Nat.eq_of_testBit_eq
    intro j
    simp only [Nat.shiftLeft_eq, one_mul, Nat.testBit_and, Nat.testBit_two_pow_sub_one,
      Nat.testBit_two_pow, Nat.zero_testBit]
    by_cases hj : j < i <;> by_cases hij : i = j <;> simp_all
  unfold cstep
  by_cases h : x &&& (1 <<< i) ≠ 0
  · rw [if_pos h]
    have hbit : (x ^^^ ((1 <<< i) - 1)) &&& (1 <<< i) = x &&& (1 <<< i) := by
      rw [Nat.and_xor_distrib_right, hmask, Nat.xor_zero]
    rw [if_pos (by rw [hbit]; exact h)]
    rw [Nat.xor_assoc, Nat.xor_self, Nat.xor_zero]
  · rw [if_neg h, if_neg h]

theorem cstep_lt (i b x : Nat) (hi : i < b) (hx : x < 2 ^ b) : cstep i x < 2 ^ b := by
  have hsh : (1 : Nat) <<< i = 2 ^ i := by simp [Nat.shiftLeft_eq]
  unfold cstep
  split
  · apply Nat.xor_lt_two_pow hx
    have h1 : 2 ^ i ≤ 2 ^ b := Nat.pow_le_pow_right (by omega) (by omega)
    have h2 : 0 < 2 ^ i := pow_pos (by omega) i
    omega
  · exact hx

theorem ccascade_cons (i : Nat) (l : List Nat) (x : Nat) :
    ccascade (i :: l) x = ccascade l (cstep i x) := rfl

theorem ccascade_append (l1 l2 : List Nat) (x : Nat) :
    ccascade (l1 ++ l2) x = ccascade l2 (ccascade l1 x) := by
  simp [ccascade]

theorem ccascade_reverse_left (l : List Nat) (x : Nat) :
    ccascade l.reverse (ccascade l x) = x := by
  induction l generalizing x with
  | nil => rfl
  | cons i l ih =>
    rw [ccascade_cons, List.reverse_cons, ccascade_append, ih]
    show cstep i (cstep i x) = x
    exact cstep_involution i x

theorem ccascade_reverse_right (l : List Nat) (x : Nat) :
    ccascade l (ccascade l.reverse x) = x := by
  have := ccascade_reverse_left l.reverse x
  rwa [List.reverse_reverse] at this

theorem ccascade_lt (l : List Nat) (b : Nat) :
    ∀ x, (∀ i ∈ l, i < b) → x < 2 ^ b → ccascade l x < 2 ^ b := by
  induction l with
  | nil => exact fun x _ hx => hx
  | cons i l ih =>
    intro x hl hx
    rw [ccascade_cons]
    exact ih _ (fun j hj => hl j (List.mem_cons_of_mem _ hj))
      (cstep_lt i b x (hl i (List.mem_cons_self _ _)) hx)

theorem circle_bitrev_idx_lt (idx bits : Nat) : circle_bitrev_idx idx bits < 2 ^ bits := by
  unfold circle_bitrev_idx
  exact ccascade_lt _ _ _ (fun i hi => List.mem_range.mp hi) (reverse_bits_len_lt _ _)

theorem circle_bitrev_inv_lt (idx bits : Nat) : circle_bitrev_inv idx bits < 2 ^ bits :=
  reverse_bits_len_lt _ _

theorem circle_bitrev_inv_left (idx bits : Nat) (h : idx < 2 ^ bits) :
    circle_bitrev_inv (circle_bitrev_idx idx bits) bits = idx := by
  unfold circle_bitrev_inv circle_bitrev_idx
  rw [ccascade_reverse_left, reverse_bits_len_involution _ _ h]

theorem circle_bitrev_inv_right (idx bits : Nat) (h : idx < 2 ^ bits) :
    circle_bitrev_idx (circle_bitrev_inv idx bits) bits = idx := by
  unfold circle_bitrev_inv circle_bitrev_idx
  have hc : ccascade (List.range bits).reverse idx < 2 ^ bits :=
    ccascade_lt _ _ _ (fun i hi => List.mem_range.mp (List.mem_reverse.mp hi)) h
  rw [reverse_bits_len_involution _ _ hc, ccascade_reverse_right]

theorem log2_two_pow (b : Nat) : Nat.log2 (2 ^ b) = b := by
  rw [Nat.log2_eq_log_two, Nat.log_pow (by norm_num)]

theorem circle_bitrev_permute_length {T : Type} [Inhabited T] (xs : List T) :
    (circle_bitrev_permute xs).length = xs.length := by
  simp [circle_bitrev_permute]

theorem circle_bitrev_permute_getD {T : Type} [Inhabited T] (xs : List T) (idx : Nat)
    (h : idx < xs.length) :
    (circle_bitrev_permute xs).getD idx default
      = xs.getD (circle_bitrev_idx idx (Nat.log2 xs.length)) default := by
  unfold circle_bitrev_permute
  rw [List.getD_eq_getElem _ _ (by simpa using h)]
  rw [List.getElem_map, List.getElem_range]

/-! ## Circle points, domains and field collaborators -/

/-- Modelled from the spec: a domain point is "an ordered pair (real,
imaginary) of base-field elements lying on the circle curve" (§3).  Only the
coordinates and the group law are needed by the folding claims. -/
structure CirclePoint (F : Type) where
  real : F
  imag : F

/-- Modelled from the spec: the circle group law, by which domain points are
"generated from a fixed generator raised to successive powers" (§3). -/
def CirclePoint.mul {F : Type} [Field F] (p q : CirclePoint F) : CirclePoint F :=
  ⟨p.real * q.real - p.imag * q.imag, p.real * q.imag + p.imag * q.real⟩

/-- Iterated `CirclePoint.mul`, i.e. `exp_u64` on circle points. -/
def CirclePoint.pow {F : Type} [Field F] (p : CirclePoint F) : Nat → CirclePoint F
  | 0 => ⟨1, 0⟩
  | n + 1 => p.mul (p.pow n)

variable {F : Type} [Field F] [Inhabited F]

/-- Modelled from the spec: `CircleDomain::standard(log_n).points()` (§4.1):
"`points()` produces a lazy, finite sequence of exactly `2^log_n` domain
points in generator order (point at index k = shift · generator^k, generator
chosen as the canonical two-adic circle generator of that size)"; per §4.6
the standard domain's shift is the two-adic generator one level above the
domain's own size.  The per-field lookup `circle_two_adic_generator` is the
parameter `cgen`. -/
def domainPoints (cgen : Nat → CirclePoint F) (log_n : Nat) : List (CirclePoint F) :=
  (List.range (2 ^ log_n)).map (fun k => (cgen (log_n + 1)).mul ((cgen log_n).pow k))

/-- Modelled from the spec: `p3_field::batch_multiplicative_inverse`
(glossary: "computing the multiplicative inverse of many field elements with
a single true inversion plus linear-cost bookkeeping"); the batching is an
optimization, the result is the elementwise inverse. -/
def batch_multiplicative_inverse (l : List F) : List F := l.map (·⁻¹)

/-- `halve`, the cheap divide-by-2 of the field-algebra collaborator. -/
def halve {K : Type} [Field K] (x : K) : K := x / 2

variable {EF : Type} [Field EF] [Algebra F EF]

/-- `fold` (folding.rs lines 60-75): zip the width-2 rows with the twiddles
and apply the sum/diff/halve butterfly to each pair. -/
def fold (evals : List (EF × EF)) (beta : EF) (twiddles : List F) : List EF :=
  (evals.zip twiddles).map
    (fun rt => halve ((rt.1.1 + rt.1.2) + beta * ((rt.1.1 - rt.1.2) * algebraMap F EF rt.2)))

/-- `fold_bivariate` (folding.rs lines 13-28): twiddles are the inverted
imaginary coordinates of the first `height` points of the standard domain one
level above `log2 height`, circle-bit-reversed. -/
def fold_bivariate (cgen : Nat → CirclePoint F) (evals : List (EF × EF)) (beta : EF) :
    List EF :=
  fold evals beta (circle_bitrev_permute (batch_multiplicative_inverse
    (((domainPoints cgen (Nat.log2 evals.length + 1)).take evals.length).map CirclePoint.imag)))

/-- `CircleFriFolder::fold_matrix` (folding.rs lines 33-45): twiddles are the
inverted real coordinates of the first `height` points of the standard domain
two levels above `log2 height`, circle-bit-reversed. -/
def fold_matrix (cgen : Nat → CirclePoint F) (m : List (EF × EF)) (beta : EF) : List EF :=
  fold m beta (circle_bitrev_permute (batch_multiplicative_inverse
    (((domainPoints cgen (Nat.log2 m.length + 2)).take m.length).map CirclePoint.real)))

/-- `CircleFriFolder::fold_row` (folding.rs lines 46-57): recover the
natural-order index of the row, land on the corresponding domain point with
`shift · g^orig_idx`, invert its real coordinate and apply the butterfly. -/
def fold_row (cgen : Nat → CirclePoint F) (index log_height : Nat) (e0 e1 beta : EF) : EF :=
  let shift := cgen (log_height + 3)
  let g := cgen (log_height + 2)
  let t := ((shift.mul (g.pow (circle_bitrev_idx index log_height))).real)⁻¹
  halve ((e0 + e1) + beta * ((e0 - e1) * algebraMap F EF t))

/-! ## General-width matrices and the checked entry points -/

/-- A row-major matrix as in `p3_matrix`: flat values plus an explicit width;
the height is `values.len() / width`. -/
structure RowMatrix (α : Type) where
  values : List α
  width : Nat

def RowMatrix.height {α : Type} (m : RowMatrix α) : Nat := m.values.length / m.width

/-- The rows of a width-2 matrix as pairs, as `fold` consumes them. -/
def RowMatrix.rows2 {α : Type} [Zero α] (m : RowMatrix α) : List (α × α) :=
  (List.range m.height).map
    (fun i => (m.values.getD (2 * i) 0, m.values.getD (2 * i + 1) 0))

/-- `fold_bivariate` with its preconditions modelled: the source asserts
`width == 2` (folding.rs line 17) and calls `log2_strict_usize(height)`
(line 18), which panics unless the height is a power of two. -/
def fold_bivariate_checked (cgen : Nat → CirclePoint F) (m : RowMatrix EF) (beta : EF) :
    Option (List EF) :=
  if m.width = 2 then guard_pow2 m.height (fold_bivariate cgen m.rows2 beta) else none

/-- `fold_matrix` with its preconditions modelled: the source asserts
`width == 2` (folding.rs line 34) and calls `log2_strict_usize(height)`
(line 35). -/
def fold_matrix_checked (cgen : Nat → CirclePoint F) (m : RowMatrix EF) (beta : EF) :
    Option (List EF) :=
  if m.width = 2 then guard_pow2 m.height (fold_matrix cgen m.rows2 beta) else none

/-- `CircleBitrevPermutation::permute_index` (folding.rs lines 98-104). -/
def CircleBitrevPermutation_permute_index (r height : Nat) : Nat :=
  circle_bitrev_idx r (Nat.log2 height)

/-! ## Indexing lemmas for the folding pipeline -/

theorem fold_length (evals : List (EF × EF)) (beta : EF) (tw : List F) :
    (fold evals beta tw).length = min evals.length tw.length := by
  simp [fold]

theorem fold_getD (evals : List (EF × EF)) (beta : EF) (tw : List F) (i : Nat)
    (h1 : i < evals.length) (h2 : i < tw.length) :
    (fold evals beta tw).getD i 0
      = halve (((evals.getD i (0, 0)).1 + (evals.getD i (0, 0)).2)
          + beta * (((evals.getD i (0, 0)).1 - (evals.getD i (0, 0)).2)
              * algebraMap F EF (tw.getD i 0))) := by
  unfold fold
  rw [List.getD_eq_getElem _ _ (by simp [fold]; omega)]
  rw [List.getElem_map, List.getElem_zip, List.getD_eq_getElem _ _ h1,
    List.getD_eq_getElem _ _ h2]

theorem batch_multiplicative_inverse_length (l : List F) :
    (batch_multiplicative_inverse l).length = l.length := by
  simp [batch_multiplicative_inverse]

theorem batch_multiplicative_inverse_getD (l : List F) (i : Nat) (h : i < l.length) :
    (batch_multiplicative_inverse l).getD i 0 = (l.getD i 0)⁻¹ := by
  unfold batch_multiplicative_inverse
  rw [List.getD_eq_getElem _ _ (by simpa using h), List.getElem_map,
    List.getD_eq_getElem _ _ h]

theorem domainPoints_length (cgen : Nat → CirclePoint F) (log_n : Nat) :
    (domainPoints cgen log_n).length = 2 ^ log_n := by
  simp [domainPoints]

theorem domainPoints_getD (cgen : Nat → CirclePoint F) (log_n k : Nat)
    (h : k < 2 ^ log_n) (d : CirclePoint F) :
    (domainPoints cgen log_n).getD k d = (cgen (log_n + 1)).mul ((cgen log_n).pow k) := by
  unfold domainPoints
  rw [List.getD_eq_getElem _ _ (by simpa using h), List.getElem_map, List.getElem_range]

theorem map_take_getD {α β : Type} (l : List α) (f : α → β) (m j : Nat)
    (hj : j < m) (hl : j < l.length) (d : α) (d' : β) :
    ((l.take m).map f).getD j d' = f (l.getD j d) := by
  rw [List.getD_eq_getElem _ _ (by simp; omega), List.getElem_map, List.getElem_take,
    List.getD_eq_getElem _ _ hl]

/-! ## Concrete evaluations of the bit-reversal permutation -/

theorem nat_log2_one : Nat.log2 1 = 0 := by simp [Nat.log2]

theorem nat_log2_two : Nat.log2 2 = 1 := by simp [Nat.log2]

theorem nat_log2_four : Nat.log2 4 = 2 := by simp [Nat.log2]

theorem nat_log2_eight : Nat.log2 8 = 3 := by simp [Nat.log2]

theorem circle_bitrev_permute_four :
    circle_bitrev_permute ([0, 1, 2, 3] : List Nat) = [0, 3, 1, 2] := by
  unfold circle_bitrev_permute
  rw [show ([0, 1, 2, 3] : List Nat).length = 4 from rfl, nat_log2_four]
  decide

theorem circle_bitrev_permute_eight :
    circle_bitrev_permute ([0, 1, 2, 3, 4, 5, 6, 7] : List Nat) = [0, 7, 3, 4, 1, 6, 2, 5] := by
  unfold circle_bitrev_permute
  rw [show ([0, 1, 2, 3, 4, 5, 6, 7] : List Nat).length = 8 from rfl, nat_log2_eight]
  decide

theorem circle_bitrev_permute_singleton {T : Type} [Inhabited T] (a : T) :
    circle_bitrev_permute [a] = [a] := by
  unfold circle_bitrev_permute
  rw [show ([a]).length = 1 from rfl, nat_log2_one]
  rw [show List.range 1 = [0] from rfl]
  simp only [List.map]
  rw [show circle_bitrev_idx 0 0 = 0 from rfl]
  rfl

theorem circle_bitrev_permute_pair {T : Type} [Inhabited T] (a b : T) :
    circle_bitrev_permute [a, b] = [a, b] := by
  unfold circle_bitrev_permute
  rw [show ([a, b]).length = 2 from rfl, nat_log2_two]
  rw [show List.range 2 = [0, 1] from by decide]
  simp only [List.map]
  rw [show circle_bitrev_idx 0 1 = 0 from by decide,
    show circle_bitrev_idx 1 1 = 1 from by decide]
  rfl

/-- C4: `circle_bitrev_permute` fixes every sequence of length 1 or 2, sends
`[0,1,2,3]` to `[0,3,1,2]` and `[0,1,2,3,4,5,6,7]` to `[0,7,3,4,1,6,2,5]`. -/
theorem claim_C4 {T : Type} [Inhabited T] (xs : List T) :
    (xs.length = 1 → circle_bitrev_permute xs = xs)
    ∧ (xs.length = 2 → circle_bitrev_permute xs = xs)
    ∧ circle_bitrev_permute ([0, 1, 2, 3] : List Nat) = [0, 3, 1, 2]
    ∧ circle_bitrev_permute ([0, 1, 2, 3, 4, 5, 6, 7] : List Nat)
        = [0, 7, 3, 4, 1, 6, 2, 5] := by
  refine ⟨?_, ?_, circle_bitrev_permute_four, circle_bitrev_permute_eight⟩
  · intro h
    obtain ⟨a, rfl⟩ := List.length_eq_one.mp h
    exact circle_bitrev_permute_singleton a
  · intro h
    obtain ⟨a, b, rfl⟩ := List.length_eq_two.mp h
    exact circle_bitrev_permute_pair a b

/-- C4 witness: the hypotheses of `claim_C4` discharged at `xs := [42, 7]`. -/
theorem claim_C4_witness :
    circle_bitrev_permute ([42, 7] : List Nat) = [42, 7]
    ∧ circle_bitrev_permute ([0, 1, 2, 3] : List Nat) = [0, 3, 1, 2] :=
  ⟨(claim_C4 ([42, 7] : List Nat)).2.1 (by decide), (claim_C4 ([42, 7] : List Nat)).2.2.1⟩

/-- C5 counterexample: the claim `circle_bitrev_permute(xs)[circle_bitrev_idx(idx, log2 len)]
= xs[idx]` fails at `xs = [0,1,2,3]`, `idx = 1`: the left side is 2, the right side is 1. -/
theorem claim_C5_counterexample :
    (circle_bitrev_permute ([0, 1, 2, 3] : List Nat)).getD (circle_bitrev_idx 1 2) 0
      ≠ ([0, 1, 2, 3] : List Nat).getD 1 0 := by
  rw [circle_bitrev_permute_four]
  decide

/-- C5 (amended): `circle_bitrev_idx idx bits` stays inside `[0, 2^bits)`, and
`circle_bitrev_permute` places `xs[circle_bitrev_idx(idx, log2 len)]` at
storage position `idx`, i.e. `circle_bitrev_permute(xs)[idx] =
xs[circle_bitrev_idx(idx, log2(len(xs)))]`. -/
theorem claim_C5_amended {T : Type} [Inhabited T] (xs : List T) (bits idx : Nat)
    (hlen : xs.length = 2 ^ bits) (hidx : idx < 2 ^ bits) :
    circle_bitrev_idx idx bits < 2 ^ bits
    ∧ (circle_bitrev_permute xs).getD idx default
        = xs.getD (circle_bitrev_idx idx (Nat.log2 xs.length)) default := by
  refine ⟨circle_bitrev_idx_lt idx bits, ?_⟩
  exact circle_bitrev_permute_getD xs idx (by omega)

/-- C5 witness: the amended claim at `xs = [0,1,2,3]`, `idx = 1`. -/
theorem claim_C5_amended_witness :
    circle_bitrev_idx 1 2 < 2 ^ 2
    ∧ (circle_bitrev_permute ([0, 1, 2, 3] : List Nat)).getD 1 default
        = ([0, 1, 2, 3] : List Nat).getD
            (circle_bitrev_idx 1 (Nat.log2 ([0, 1, 2, 3] : List Nat).length)) default :=
  claim_C5_amended ([0, 1, 2, 3] : List Nat) 2 1 (by decide) (by decide)

theorem circle_bitrev_unpermute_length {T : Type} [Inhabited T] (xs : List T) :
    (circle_bitrev_unpermute xs).length = xs.length := by
  simp [circle_bitrev_unpermute]

theorem circle_bitrev_unpermute_getD {T : Type} [Inhabited T] (xs : List T) (idx : Nat)
    (h : idx < xs.length) :
    (circle_bitrev_unpermute xs).getD idx default
      = xs.getD (circle_bitrev_inv idx (Nat.log2 xs.length)) default := by
  unfold circle_bitrev_unpermute
  rw [List.getD_eq_getElem _ _ (by simpa using h)]
  rw [List.getElem_map, List.getElem_range]

/-- C6: `circle_bitrev_idx (·, bits)` is a permutation of `[0, 2^bits)` with
explicit inverse `circle_bitrev_inv`; composing `circle_bitrev_permute` with
the permutation built from that inverse restores the original order; and the
map is not self-inverse: at `bits = 2` the index 1 is not a fixed point of
the squared map. -/
theorem claim_C6 {T : Type} [Inhabited T] (bits : Nat) (xs : List T) :
    (∀ idx, idx < 2 ^ bits → circle_bitrev_idx idx bits < 2 ^ bits
      ∧ circle_bitrev_inv (circle_bitrev_idx idx bits) bits = idx
      ∧ circle_bitrev_idx (circle_bitrev_inv idx bits) bits = idx)
    ∧ (xs.length = 2 ^ bits → circle_bitrev_unpermute (circle_bitrev_permute xs) = xs)
    ∧ circle_bitrev_idx (circle_bitrev_idx 1 2) 2 ≠ 1 := by
  refine ⟨fun idx hidx => ⟨circle_bitrev_idx_lt idx bits,
    circle_bitrev_inv_left idx bits hidx, circle_bitrev_inv_right idx bits hidx⟩,
    ?_, by decide⟩
  intro hlen
  have hplen : (circle_bitrev_permute xs).length = xs.length :=
    circle_bitrev_permute_length xs
  apply List.ext_getElem (by rw [circle_bitrev_unpermute_length, hplen])
  intro i h1 h2
  have hi : i < 2 ^ bits := by
    rw [circle_bitrev_unpermute_length, hplen, hlen] at h1
    exact h1
  have hlog : Nat.log2 (circle_bitrev_permute xs).length = bits := by
    rw [hplen, hlen, log2_two_pow]
  rw [← List.getD_eq_getElem _ default h1, ← List.getD_eq_getElem _ default h2]
  rw [circle_bitrev_unpermute_getD _ i (by omega), hlog]
  rw [circle_bitrev_permute_getD xs _ (by rw [hlen]; exact circle_bitrev_inv_lt i bits)]
  rw [hlen, log2_two_pow, circle_bitrev_inv_right i bits hi]

/-- C6 witness: the bijection facts at `bits = 2`, `idx = 1` and the
round trip at `xs = [0,1,2,3]`. -/
theorem claim_C6_witness :
    (circle_bitrev_idx 1 2 < 2 ^ 2
      ∧ circle_bitrev_inv (circle_bitrev_idx 1 2) 2 = 1
      ∧ circle_bitrev_idx (circle_bitrev_inv 1 2) 2 = 1)
    ∧ circle_bitrev_unpermute (circle_bitrev_permute ([0, 1, 2, 3] : List Nat))
        = [0, 1, 2, 3] :=
  ⟨(claim_C6 2 ([0, 1, 2, 3] : List Nat)).1 1 (by decide),
    (claim_C6 2 ([0, 1, 2, 3] : List Nat)).2.1 (by decide)⟩

/-- C9: the lazy row-permutation view `CircleBitrevPermutation::permute_index`
computes `circle_bitrev_idx r (log2 height)`, and `circle_bitrev_permute`
realizes the same reordering: output row `r` is input row
`permute_index r height`. -/
theorem claim_C9 {T : Type} [Inhabited T] (k height r : Nat) (xs : List T)
    (hh : height = 2 ^ k) (hr : r < height) (hlen : xs.length = height) :
    CircleBitrevPermutation_permute_index r height = circle_bitrev_idx r k
    ∧ (circle_bitrev_permute xs).getD r default
        = xs.getD (CircleBitrevPermutation_permute_index r height) default := by
  have hk : Nat.log2 height = k := by rw [hh, log2_two_pow]
  constructor
  · unfold CircleBitrevPermutation_permute_index
    rw [hk]
  · rw [circle_bitrev_permute_getD xs r (by omega)]
    unfold CircleBitrevPermutation_permute_index
    rw [hlen, hk]

/-- C9 witness: the refinement at `height = 4`, `r = 1`, `xs = [0,1,2,3]`. -/
theorem claim_C9_witness :
    CircleBitrevPermutation_permute_index 1 4 = circle_bitrev_idx 1 2
    ∧ (circle_bitrev_permute ([0, 1, 2, 3] : List Nat)).getD 1 default
        = ([0, 1, 2, 3] : List Nat).getD (CircleBitrevPermutation_permute_index 1 4) default :=
  claim_C9 2 4 1 ([0, 1, 2, 3] : List Nat) (by decide) (by decide) (by decide)

theorem getD_congr_default {α : Type} (l : List α) (i : Nat) (h : i < l.length) (d d' : α) :
    l.getD i d = l.getD i d' := by
  rw [List.getD_eq_getElem _ _ h, List.getD_eq_getElem _ _ h]

theorem circle_bitrev_permute_getD_pow2 {T : Type} [Inhabited T] (xs : List T)
    (bits idx : Nat) (hlen : xs.length = 2 ^ bits) (hidx : idx < 2 ^ bits) (d d' : T) :
    (circle_bitrev_permute xs).getD idx d = xs.getD (circle_bitrev_idx idx bits) d' := by
  have hx : idx < xs.length := by omega
  have hb : circle_bitrev_idx idx bits < xs.length := by
    rw [hlen]
    exact circle_bitrev_idx_lt idx bits
  rw [getD_congr_default _ _ (by rw [circle_bitrev_permute_length]; exact hx) d default]
  rw [circle_bitrev_permute_getD xs idx hx, hlen, log2_two_pow]
  exact getD_congr_default _ _ hb _ _

/-- C2: on a width-2 matrix of height `2^lh`, `fold_bivariate` uses a circle
domain of size `2·height`, twiddles are the circle-bit-reversed batch
inverses of the imaginary coordinates of the first `height` domain points,
the output has length exactly `height`, and row `i` is
`halve(sum + beta·diff)` with `sum = lo + hi`, `diff = (lo - hi)·twiddle_i`. -/
theorem claim_C2 (cgen : Nat → CirclePoint F) (evals : List (EF × EF)) (beta : EF)
    (lh : Nat) (hlen : evals.length = 2 ^ lh) :
    (domainPoints cgen (lh + 1)).length = 2 * evals.length
    ∧ (fold_bivariate cgen evals beta).length = evals.length
    ∧ ∀ i, i < evals.length →
        (fold_bivariate cgen evals beta).getD i 0
          = halve (((evals.getD i (0, 0)).1 + (evals.getD i (0, 0)).2)
              + beta * (((evals.getD i (0, 0)).1 - (evals.getD i (0, 0)).2)
                  * algebraMap F EF ((circle_bitrev_permute (batch_multiplicative_inverse
                      (((domainPoints cgen (lh + 1)).take evals.length).map
                        CirclePoint.imag))).getD i 0))) := by
  have hlog : Nat.log2 evals.length = lh := by rw [hlen, log2_two_pow]
  have hdl : (domainPoints cgen (lh + 1)).length = 2 ^ (lh + 1) :=
    domainPoints_length cgen (lh + 1)
  have hle : evals.length ≤ 2 ^ (lh + 1) := by
    rw [hlen]
    exact Nat.pow_le_pow_right (by omega) (by omega)
  have htw : (circle_bitrev_permute (batch_multiplicative_inverse
      (((domainPoints cgen (lh + 1)).take evals.length).map
        CirclePoint.imag))).length = evals.length := by
    rw [circle_bitrev_permute_length, batch_multiplicative_inverse_length,
      List.length_map, List.length_take, hdl]
    omega
  refine ⟨by rw [hdl, hlen]; ring, ?_, ?_⟩
  · unfold fold_bivariate
    rw [hlog, fold_length, htw, Nat.min_self]
  · intro i hi
    unfold fold_bivariate
    rw [hlog]
    exact fold_getD evals beta _ i hi (by rw [htw]; exact hi)

/-- C3: `fold_matrix` applies the identical per-row sum/diff/halve formula as
`fold_bivariate` but takes its twiddles from the inverted real coordinates of
the first `height` points of a circle domain of size `4·height` (two levels
above the output log-height), again circle-bit-reversed, returning a vector
of length exactly `height`. -/
theorem claim_C3 (cgen : Nat → CirclePoint F) (evals : List (EF × EF)) (beta : EF)
    (lh : Nat) (hlen : evals.length = 2 ^ lh) :
    (domainPoints cgen (lh + 2)).length = 4 * evals.length
    ∧ (fold_matrix cgen evals beta).length = evals.length
    ∧ ∀ i, i < evals.length →
        (fold_matrix cgen evals beta).getD i 0
          = halve (((evals.getD i (0, 0)).1 + (evals.getD i (0, 0)).2)
              + beta * (((evals.getD i (0, 0)).1 - (evals.getD i (0, 0)).2)
                  * algebraMap F EF ((circle_bitrev_permute (batch_multiplicative_inverse
                      (((domainPoints cgen (lh + 2)).take evals.length).map
                        CirclePoint.real))).getD i 0))) := by
  have hlog : Nat.log2 evals.length = lh := by rw [hlen, log2_two_pow]
  have hdl : (domainPoints cgen (lh + 2)).length = 2 ^ (lh + 2) :=
    domainPoints_length cgen (lh + 2)
  have hle : evals.length ≤ 2 ^ (lh + 2) := by
    rw [hlen]
    exact Nat.pow_le_pow_right (by omega) (by omega)
  have htw : (circle_bitrev_permute (batch_multiplicative_inverse
      (((domainPoints cgen (lh + 2)).take evals.length).map
        CirclePoint.real))).length = evals.length := by
    rw [circle_bitrev_permute_length, batch_multiplicative_inverse_length,
      List.length_map, List.length_take, hdl]
    omega
  refine ⟨by rw [hdl, hlen]; ring, ?_, ?_⟩
  · unfold fold_matrix
    rw [hlog, fold_length, htw, Nat.min_self]
  · intro i hi
    unfold fold_matrix
    rw [hlog]
    exact fold_getD evals beta _ i hi (by rw [htw]; exact hi)

/-- C1: the query-time single-row folder agrees pointwise with the bulk
recursive fold: for every height `2^log_height`, every `index < 2^log_height`
and every challenge `beta`, `fold_row` applied to row `index` of the matrix
equals entry `index` of `fold_matrix`. -/
theorem claim_C1 (cgen : Nat → CirclePoint F) (log_height : Nat)
    (evals : List (EF × EF)) (index : Nat) (e0 e1 beta : EF)
    (hlen : evals.length = 2 ^ log_height) (hidx : index < 2 ^ log_height)
    (hrow : evals.getD index (0, 0) = (e0, e1)) :
    fold_row cgen index log_height e0 e1 beta
      = (fold_matrix cgen evals beta).getD index 0 := by
  have hlog : Nat.log2 evals.length = log_height := by rw [hlen, log2_two_pow]
  have hdl : (domainPoints cgen (log_height + 2)).length = 2 ^ (log_height + 2) :=
    domainPoints_length _ _
  have hle : evals.length ≤ 2 ^ (log_height + 2) := by
    rw [hlen]
    exact Nat.pow_le_pow_right (by omega) (by omega)
  have hmaplen : (((domainPoints cgen (log_height + 2)).take evals.length).map
      CirclePoint.real).length = evals.length := by
    rw [List.length_map, List.length_take, hdl]
    omega
  have hbinvlen : (batch_multiplicative_inverse
      (((domainPoints cgen (log_height + 2)).take evals.length).map
        CirclePoint.real)).length = evals.length := by
    rw [batch_multiplicative_inverse_length, hmaplen]
  have htw : (circle_bitrev_permute (batch_multiplicative_inverse
      (((domainPoints cgen (log_height + 2)).take evals.length).map
        CirclePoint.real))).length = evals.length := by
    rw [circle_bitrev_permute_length, hbinvlen]
  have hidx' : index < evals.length := by omega
  have hcb : circle_bitrev_idx index log_height < 2 ^ log_height :=
    circle_bitrev_idx_lt _ _
  unfold fold_matrix
  rw [hlog]
  rw [fold_getD evals beta _ index hidx' (by rw [htw]; exact hidx')]
  rw [circle_bitrev_permute_getD_pow2 _ log_height index (by rw [hbinvlen, hlen]) hidx 0 0]
  rw [batch_multiplicative_inverse_getD _ _ (by rw [hmaplen, hlen]; exact hcb)]
  rw [map_take_getD (domainPoints cgen (log_height + 2)) CirclePoint.real evals.length
    (circle_bitrev_idx index log_height) (by rw [hlen]; exact hcb)
    (by rw [hdl]; omega) ⟨0, 0⟩ 0]
  rw [domainPoints_getD cgen (log_height + 2) (circle_bitrev_idx index log_height)
    (by omega) ⟨0, 0⟩]
  rw [hrow]
  simp only [fold_row]

/-- Linear interpolation recovers an affine function of the challenge from
two sampled values. -/
theorem affine_interpolation {K : Type} [Field K] (c0 c1 b1 b2 b3 : K) (h : b1 ≠ b2) :
    c0 + b3 * c1 = (c0 + b1 * c1) + (b3 - b1) * ((c0 + b2 * c1) - (c0 + b1 * c1)) / (b2 - b1) := by
  have hne : b2 - b1 ≠ 0 := sub_ne_zero.mpr (Ne.symm h)
  field_simp
  ring

/-- C7: at every fixed row the folded value is affine in the challenge:
entry `i` of `fold` is `c0 + beta·c1` with `c0 = halve(lo + hi)` and
`c1 = halve((lo - hi)·t)`; consequently `fold_row` at any challenge `beta3`
is recovered by linear interpolation between its values at any two distinct
challenges `beta1 ≠ beta2`. -/
theorem claim_C7 (cgen : Nat → CirclePoint F) (evals : List (EF × EF)) (twiddles : List F)
    (i : Nat) (beta beta1 beta2 beta3 : EF) (index log_height : Nat) (e0 e1 : EF)
    (h1 : i < evals.length) (h2 : i < twiddles.length) (hb : beta1 ≠ beta2) :
    (fold evals beta twiddles).getD i 0
      = halve ((evals.getD i (0, 0)).1 + (evals.getD i (0, 0)).2)
        + beta * halve (((evals.getD i (0, 0)).1 - (evals.getD i (0, 0)).2)
            * algebraMap F EF (twiddles.getD i 0))
    ∧ fold_row cgen index log_height e0 e1 beta3
      = fold_row cgen index log_height e0 e1 beta1
        + (beta3 - beta1)
          * (fold_row cgen index log_height e0 e1 beta2
              - fold_row cgen index log_height e0 e1 beta1)
          / (beta2 - beta1) := by
  constructor
  · rw [fold_getD evals beta twiddles i h1 h2]
    unfold halve
    ring
  · have key : ∀ b : EF, fold_row cgen index log_height e0 e1 b
        = halve (e0 + e1) + b * halve ((e0 - e1) * algebraMap F EF
            (((cgen (log_height + 3)).mul ((cgen (log_height + 2)).pow
              (circle_bitrev_idx index log_height))).real)⁻¹) := by
      intro b
      simp only [fold_row, halve]
      ring
    rw [key beta1, key beta2, key beta3]
    exact affine_interpolation _ _ _ _ _ hb

/-! ## The precondition checks (C8) -/

theorem log2_strict_eq_none_iff (n : Nat) : log2_strict n = none ↔ ¬ ∃ k, n = 2 ^ k := by
  unfold log2_strict
  by_cases h : n = 2 ^ Nat.log2 n
  · rw [if_pos h]
    exact iff_of_false (by simp) (not_not_intro ⟨Nat.log2 n, h⟩)
  · rw [if_neg h]
    refine iff_of_true rfl ?_
    rintro ⟨k, rfl⟩
    exact h (by rw [log2_two_pow])

theorem log2_strict_eq_some (n k : Nat) (h : log2_strict n = some k) :
    n = 2 ^ Nat.log2 n := by
  unfold log2_strict at h
  by_cases hc : n = 2 ^ Nat.log2 n
  · exact hc
  · rw [if_neg hc] at h
    simp at h

theorem guard_pow2_eq_none_iff {β : Type} (n : Nat) (v : β) :
    guard_pow2 n v = none ↔ ¬ ∃ k, n = 2 ^ k := by
  unfold guard_pow2
  cases hls : log2_strict n with
  | some k =>
    exact iff_of_false (by simp)
      (not_not_intro ⟨Nat.log2 n, log2_strict_eq_some n k hls⟩)
  | none => exact iff_of_true rfl ((log2_strict_eq_none_iff n).mp hls)

/-- C8: the checked entry points fail exactly on their precondition
violations: `fold_bivariate` and `fold_matrix` fail iff the width is not 2
or the height is not a power of two, and `circle_bitrev_permute` fails iff
its input length is not a power of two; whenever the preconditions hold a
value is returned. -/
theorem claim_C8 {T : Type} [Inhabited T] (cgen : Nat → CirclePoint F)
    (m : RowMatrix EF) (beta : EF) (xs : List T) :
    (fold_bivariate_checked cgen m beta = none
      ↔ m.width ≠ 2 ∨ ¬ ∃ k, m.height = 2 ^ k)
    ∧ (fold_matrix_checked cgen m beta = none
      ↔ m.width ≠ 2 ∨ ¬ ∃ k, m.height = 2 ^ k)
    ∧ (circle_bitrev_permute_checked xs = none ↔ ¬ ∃ k, xs.length = 2 ^ k) := by
  refine ⟨?_, ?_, guard_pow2_eq_none_iff _ _⟩
  · unfold fold_bivariate_checked
    by_cases hw : m.width = 2
    · rw [if_pos hw, guard_pow2_eq_none_iff]
      simp [hw]
    · rw [if_neg hw]
      exact iff_of_true rfl (Or.inl hw)
  · unfold fold_matrix_checked
    by_cases hw : m.width = 2
    · rw [if_pos hw, guard_pow2_eq_none_iff]
      simp [hw]
    · rw [if_neg hw]
      exact iff_of_true rfl (Or.inl hw)

/-! ## Packed slices (`field/src/packed.rs`, C10) -/

/-- `PackedValue::pack_slice` (packed.rs lines 33-47): asserts
`buf.len() % WIDTH == 0`, then reinterprets the buffer as `len / WIDTH`
packed values, packed value `i` being the `WIDTH` consecutive scalars
starting at offset `i·WIDTH`. -/
def pack_slice {V : Type} (W : Nat) (buf : List V) : Option (List (List V)) :=
  if buf.length % W = 0 then
    some ((List.range (buf.length / W)).map (fun i => (buf.drop (i * W)).take W))
  else none

/-- `PackedValue::pack_slice_with_suffix` (packed.rs lines 49-52): split the
buffer at `len - len % WIDTH` and pack the first part. -/
def pack_slice_with_suffix {V : Type} (W : Nat) (buf : List V) :
    Option (List (List V) × List V) :=
  match pack_slice W (buf.take (buf.length - buf.length % W)) with
  | some p => some (p, buf.drop (buf.length - buf.length % W))
  | none => none

/-- C10: for every scalar buffer, `pack_slice_with_suffix` never fails and
returns `len / WIDTH` packed values together with the trailing
`len % WIDTH` scalars of the buffer as suffix, while `pack_slice` fails
exactly when the buffer length is not a multiple of `WIDTH`. -/
theorem claim_C10 {V : Type} (W : Nat) (buf : List V) (hW : 0 < W) :
    (∃ p s, pack_slice_with_suffix W buf = some (p, s)
      ∧ p.length = buf.length / W
      ∧ s.length = buf.length % W
      ∧ s = buf.drop (buf.length - buf.length % W))
    ∧ (pack_slice W buf = none ↔ buf.length % W ≠ 0) := by
  have hmod : buf.length % W ≤ buf.length := Nat.mod_le _ _
  have hdm := Nat.div_add_mod buf.length W
  have hcutlen : (buf.take (buf.length - buf.length % W)).length
      = buf.length - buf.length % W := by
    rw [List.length_take]
    omega
  have hcW : buf.length - buf.length % W = W * (buf.length / W) := by omega
  have hcutmod : (buf.take (buf.length - buf.length % W)).length % W = 0 := by
    rw [hcutlen, hcW, Nat.mul_mod_right]
  have hcutdiv : (buf.take (buf.length - buf.length % W)).length / W
      = buf.length / W := by
    rw [hcutlen, hcW, Nat.mul_div_cancel_left _ hW]
  constructor
  · refine ⟨(List.range ((buf.take (buf.length - buf.length % W)).length / W)).map
      (fun i => ((buf.take (buf.length - buf.length % W)).drop (i * W)).take W),
      buf.drop (buf.length - buf.length % W), ?_, ?_, ?_, rfl⟩
    · unfold pack_slice_with_suffix pack_slice
      rw [if_pos hcutmod]
    · simp only [List.length_map, List.length_range, hcutlen]
      rw [hcW, Nat.mul_div_cancel_left _ hW]
    · rw [List.length_drop]
      omega
  · unfold pack_slice
    by_cases h : buf.length % W = 0
    · rw [if_pos h]
      exact iff_of_false (by simp) (not_not_intro h)
    · rw [if_neg h]
      exact iff_of_true rfl h

/-! ## Concrete instantiations used by the witnesses -/

instance fact_prime_five : Fact (Nat.Prime 5) := ⟨by norm_num⟩

instance inhabited_zmod_five : Inhabited (ZMod 5) := ⟨0⟩

/-- A concrete stand-in for the two-adic circle generator lookup. -/
def cgen5 : Nat → CirclePoint (ZMod 5) := fun _ => ⟨2, 1⟩

/-- A concrete one-row width-2 evaluation matrix. -/
def cval : List (ZMod 5 × ZMod 5) := [(1, 2)]

/-- C1 witness: row/matrix agreement at `log_height = 0`, `index = 0`. -/
theorem claim_C1_witness :
    fold_row cgen5 0 0 (1 : ZMod 5) 2 3 = (fold_matrix cgen5 cval 3).getD 0 0 :=
  claim_C1 cgen5 0 cval 0 1 2 3 (by decide) (by decide) (by decide)

/-- C2 witness: the bivariate-fold characterization at a one-row matrix. -/
theorem claim_C2_witness :
    (domainPoints cgen5 (0 + 1)).length = 2 * cval.length
    ∧ (fold_bivariate cgen5 cval 3).length = cval.length
    ∧ ∀ i, i < cval.length →
        (fold_bivariate cgen5 cval 3).getD i 0
          = halve (((cval.getD i (0, 0)).1 + (cval.getD i (0, 0)).2)
              + 3 * (((cval.getD i (0, 0)).1 - (cval.getD i (0, 0)).2)
                  * algebraMap (ZMod 5) (ZMod 5) ((circle_bitrev_permute
                      (batch_multiplicative_inverse
                      (((domainPoints cgen5 (0 + 1)).take cval.length).map
                        CirclePoint.imag))).getD i 0))) :=
  claim_C2 cgen5 cval 3 0 (by decide)

/-- C3 witness: the recursive-fold characterization at a one-row matrix. -/
theorem claim_C3_witness :
    (domainPoints cgen5 (0 + 2)).length = 4 * cval.length
    ∧ (fold_matrix cgen5 cval 3).length = cval.length
    ∧ ∀ i, i < cval.length →
        (fold_matrix cgen5 cval 3).getD i 0
          = halve (((cval.getD i (0, 0)).1 + (cval.getD i (0, 0)).2)
              + 3 * (((cval.getD i (0, 0)).1 - (cval.getD i (0, 0)).2)
                  * algebraMap (ZMod 5) (ZMod 5) ((circle_bitrev_permute
                      (batch_multiplicative_inverse
                      (((domainPoints cgen5 (0 + 2)).take cval.length).map
                        CirclePoint.real))).getD i 0))) :=
  claim_C3 cgen5 cval 3 0 (by decide)

/-- C7 witness: affinity and interpolation at concrete inputs with
`beta1 = 1 ≠ 2 = beta2`. -/
theorem claim_C7_witness :
    (fold cval 3 [(2 : ZMod 5)]).getD 0 0
      = halve ((cval.getD 0 (0, 0)).1 + (cval.getD 0 (0, 0)).2)
        + 3 * halve (((cval.getD 0 (0, 0)).1 - (cval.getD 0 (0, 0)).2)
            * algebraMap (ZMod 5) (ZMod 5) (([(2 : ZMod 5)]).getD 0 0))
    ∧ fold_row cgen5 0 0 (1 : ZMod 5) 2 4
      = fold_row cgen5 0 0 (1 : ZMod 5) 2 1
        + (4 - 1) * (fold_row cgen5 0 0 (1 : ZMod 5) 2 2 - fold_row cgen5 0 0 (1 : ZMod 5) 2 1)
          / (2 - 1) :=
  claim_C7 cgen5 cval [(2 : ZMod 5)] 0 3 1 2 4 0 0 1 2 (by decide) (by decide) (by decide)

/-- C10 witness: packing `[1,2,3]` with width 2. -/
theorem claim_C10_witness :
    (∃ p s, pack_slice_with_suffix 2 ([1, 2, 3] : List Nat) = some (p, s)
      ∧ p.length = ([1, 2, 3] : List Nat).length / 2
      ∧ s.length = ([1, 2, 3] : List Nat).length % 2
      ∧ s = ([1, 2, 3] : List Nat).drop
          (([1, 2, 3] : List Nat).length - ([1, 2, 3] : List Nat).length % 2))
    ∧ (pack_slice 2 ([1, 2, 3] : List Nat) = none
        ↔ ([1, 2, 3] : List Nat).length % 2 ≠ 0) :=
  claim_C10 2 [1, 2, 3] (by decide)

end Plonky3
